import Mathlib

/-!
Verification of the go-run watch–build–supervise engine.

This file gives a shallow embedding, in Lean 4, of the core data
structures and operations of the repository: the glob engine
(internal/glob), the sum manifest (internal/sumfile), the watcher's
change-set merging (internal/watcher), the runner's restart protocol
(internal/runner), the per-target status state machine (pkg/runctl's
target), and the template configuration resolver (pkg/config).

Machine strings are ordered by Go's bytewise comparison, modelled here
as lexicographic order on the code-point sequence of the string.  Go
maps are modelled as association lists with pairwise-distinct keys, or
as functions into `Option` where only lookup matters.
-/

namespace GoRun

/-- Bytewise lexicographic less-or-equal on code-point lists, mirroring
Go's `<=` on strings. -/
def lexLe : List Char → List Char → Bool
  | [], _ => true
  | _ :: _, [] => false
  | a :: as, b :: bs =>
    if a.toNat < b.toNat then true
    else if b.toNat < a.toNat then false
    else lexLe as bs

/-- Go's `a <= b` on strings. -/
def strLe (a b : String) : Bool := lexLe a.data b.data

/-- The order relation used when the Go code sorts string slices. -/
def strRel (a b : String) : Prop := strLe a b = true

instance : DecidableRel strRel := fun a b => by
  unfold strRel; infer_instance

theorem lexLe_total (a b : List Char) : lexLe a b = true ∨ lexLe b a = true := by
  induction a generalizing b with
  | nil => left; rfl
  | cons x xs ih =>
    cases b with
    | nil => right; rfl
    | cons y ys =>
      by_cases h1 : x.toNat < y.toNat
      · left; simp [lexLe, h1]
      · by_cases h2 : y.toNat < x.toNat
        · right; simp [lexLe, h1, h2]
        · rcases ih ys with h | h
          · left; simp [lexLe, h1, h2, h]
          · right; simp [lexLe, h1, h2, h]

instance : IsTotal String strRel := ⟨fun a b => lexLe_total a.data b.data⟩

theorem lexLe_trans {a b c : List Char} (h1 : lexLe a b = true) (h2 : lexLe b c = true) :
    lexLe a c = true := by
  induction a generalizing b c with
  | nil => rfl
  | cons x xs ih =>
    cases b with
    | nil => simp [lexLe] at h1
    | cons y ys =>
      cases c with
      | nil => simp [lexLe] at h2
      | cons z zs =>
        simp only [lexLe] at h1 h2 ⊢
        by_cases hxy : x.toNat < y.toNat
        · by_cases hyz : y.toNat < z.toNat
          · simp [Nat.lt_trans hxy hyz]
          · by_cases hzy : z.toNat < y.toNat
            · simp [hyz, hzy] at h2
            · have hxz : x.toNat < z.toNat := by omega
              simp [hxz]
        · by_cases hyx : y.toNat < x.toNat
          · simp [hxy, hyx] at h1
          · by_cases hyz : y.toNat < z.toNat
            · have hxz : x.toNat < z.toNat := by omega
              simp [hxz]
            · by_cases hzy : z.toNat < y.toNat
              · simp [hyz, hzy] at h2
              · have hxz1 : ¬ x.toNat < z.toNat := by omega
                have hxz2 : ¬ z.toNat < x.toNat := by omega
                simp only [hxy, hyx, hyz, hzy, hxz1, hxz2, if_neg, if_false] at h1 h2 ⊢
                exact ih h1 h2

instance : IsTrans String strRel := ⟨fun _ _ _ h1 h2 => lexLe_trans h1 h2⟩

/-- `sort.Strings` / the hand-rolled insertion sort `sortStrings` of
internal/glob: sort a string list ascending by Go string order. -/
def sortStrings (l : List String) : List String := List.insertionSort strRel l

theorem sortStrings_sorted (l : List String) : List.Sorted strRel (sortStrings l) :=
  List.sorted_insertionSort _ _

theorem sortStrings_perm (l : List String) : (sortStrings l).Perm l :=
  List.perm_insertionSort _ _

theorem mem_sortStrings {x : String} {l : List String} : x ∈ sortStrings l ↔ x ∈ l :=
  (sortStrings_perm l).mem_iff

theorem sortStrings_nodup {l : List String} (h : l.Nodup) : (sortStrings l).Nodup :=
  ((sortStrings_perm l).nodup_iff).mpr h

end GoRun

namespace GoRun.Sumfile

/-- A SumSnapshot `map[string]string` from path to hash, modelled as an
association list whose keys are pairwise distinct. -/
abbrev SumSnapshot := List (String × String)

/-- The key set of a snapshot. -/
def SumSnapshot.keys (m : SumSnapshot) : List String := m.map Prod.fst

/-- Map lookup, `m[path]`. -/
def SumSnapshot.find (m : SumSnapshot) (k : String) : Option String := List.lookup k m

/-- `ChangeSet` of internal/sumfile: the differences between two sum files. -/
structure ChangeSet where
  added : List String
  modified : List String
  removed : List String
deriving DecidableEq, Repr

/-- `ChangeSet.IsEmpty`: true if there are no changes. -/
def ChangeSet.IsEmpty (cs : ChangeSet) : Bool :=
  cs.added.isEmpty && cs.modified.isEmpty && cs.removed.isEmpty

/-- `Diff` of internal/sumfile: for each path in `new`, classify as added
(absent from `old`) or modified (present with a different hash); paths of
`old` absent from `new` are removed; each list is sorted. -/
def Diff (old new : SumSnapshot) : ChangeSet :=
  let added := (new.filter (fun e => (old.find e.1).isNone)).map Prod.fst
  let modified := (new.filter (fun e =>
    match old.find e.1 with
    | some oldHash => decide (oldHash ≠ e.2)
    | none => false)).map Prod.fst
  let removed := (old.filter (fun e => (new.find e.1).isNone)).map Prod.fst
  ⟨sortStrings added, sortStrings modified, sortStrings removed⟩

/-- The paths present in both snapshots with equal hashes; this class is
not returned by `Diff` but completes the partition of the key union. -/
def unchangedKeys (old new : SumSnapshot) : List String :=
  (new.filter (fun e => old.find e.1 = some e.2)).map Prod.fst

theorem find_isSome_iff_mem_keys {m : SumSnapshot} {k : String} :
    (m.find k).isSome ↔ k ∈ m.keys := by
  induction m with
  | nil => simp [SumSnapshot.find, SumSnapshot.keys]
  | cons e rest ih =>
    by_cases h : k = e.1
    · subst h
      simp [SumSnapshot.find, SumSnapshot.keys, List.lookup]
    · simp only [SumSnapshot.find, SumSnapshot.keys, List.lookup, List.map_cons, List.mem_cons] at *
      have : (k == e.1) = false := by simp [h]
      simp [this, ih, h]

theorem mem_iff_find_of_nodup {m : SumSnapshot} (hm : m.keys.Nodup) {k v : String} :
    (k, v) ∈ m ↔ m.find k = some v := by
  induction m with
  | nil => simp [SumSnapshot.find]
  | cons e rest ih =>
    simp only [SumSnapshot.keys, List.map_cons, List.nodup_cons] at hm
    by_cases h : k = e.1
    · subst h
      simp only [SumSnapshot.find, List.lookup, beq_self_eq_true, List.mem_cons]
      constructor
      · rintro (he | hmem)
        · rw [← he]
        · exact absurd (List.mem_map_of_mem Prod.fst hmem) hm.1
      · intro hv
        left
        cases e
        simp_all
    · have hbeq : (k == e.1) = false := by simp [h]
      simp only [SumSnapshot.find, List.lookup, hbeq, List.mem_cons]
      rw [← SumSnapshot.find]
      constructor
      · rintro (he | hmem)
        · exact absurd (congrArg Prod.fst he) h
        · exact (ih hm.2).mp hmem
      · intro hv
        exact Or.inr ((ih hm.2).mpr hv)

theorem mem_added_iff {old new : SumSnapshot} {x : String} :
    x ∈ (Diff old new).added ↔ x ∈ new.keys ∧ old.find x = none := by
  simp only [Diff, mem_sortStrings, List.mem_map, List.mem_filter]
  constructor
  · rintro ⟨⟨p, h⟩, ⟨hmem, hcond⟩, rfl⟩
    refine ⟨List.mem_map_of_mem Prod.fst hmem, ?_⟩
    simpa [Option.isNone_iff_eq_none] using hcond
  · rintro ⟨hmem, hnone⟩
    rcases List.mem_map.mp hmem with ⟨⟨p, h⟩, hpe, rfl⟩
    exact ⟨(p, h), ⟨hpe, by simpa [Option.isNone_iff_eq_none] using hnone⟩, rfl⟩

theorem mem_modified_iff {old new : SumSnapshot} (hnew : new.keys.Nodup) {x : String} :
    x ∈ (Diff old new).modified ↔
      ∃ hNew, new.find x = some hNew ∧ ∃ hOld, old.find x = some hOld ∧ hOld ≠ hNew := by
  simp only [Diff, mem_sortStrings, List.mem_map, List.mem_filter]
  constructor
  · rintro ⟨⟨p, h⟩, ⟨hmem, hcond⟩, rfl⟩
    refine ⟨h, (mem_iff_find_of_nodup hnew).mp hmem, ?_⟩
    rcases hfind : old.find p with _ | hOld
    · simp [hfind] at hcond
    · refine ⟨hOld, rfl, ?_⟩
      simpa [hfind] using hcond
  · rintro ⟨hNew, hfindNew, hOld, hfindOld, hne⟩
    refine ⟨(x, hNew), ⟨(mem_iff_find_of_nodup hnew).mpr hfindNew, ?_⟩, rfl⟩
    simp [hfindOld, hne]

theorem mem_removed_iff {old new : SumSnapshot} {x : String} :
    x ∈ (Diff old new).removed ↔ x ∈ old.keys ∧ new.find x = none := by
  simp only [Diff, mem_sortStrings, List.mem_map, List.mem_filter]
  constructor
  · rintro ⟨⟨p, h⟩, ⟨hmem, hcond⟩, rfl⟩
    refine ⟨List.mem_map_of_mem Prod.fst hmem, ?_⟩
    simpa [Option.isNone_iff_eq_none] using hcond
  · rintro ⟨hmem, hnone⟩
    rcases List.mem_map.mp hmem with ⟨⟨p, h⟩, hpe, rfl⟩
    exact ⟨(p, h), ⟨hpe, by simpa [Option.isNone_iff_eq_none] using hnone⟩, rfl⟩

theorem mem_unchanged_iff {old new : SumSnapshot} {x : String} :
    x ∈ unchangedKeys old new ↔
      ∃ hNew, (x, hNew) ∈ new ∧ old.find x = some hNew := by
  simp only [unchangedKeys, List.mem_map, List.mem_filter]
  constructor
  · rintro ⟨⟨p, h⟩, ⟨hmem, hcond⟩, rfl⟩
    exact ⟨h, hmem, by simpa using hcond⟩
  · rintro ⟨hNew, hmem, hfind⟩
    exact ⟨(x, hNew), ⟨hmem, by simpa using hfind⟩, rfl⟩

theorem diff_self_empty {s : SumSnapshot} (hs : s.keys.Nodup) : (Diff s s).IsEmpty = true := by
  have hadd : (s.filter (fun e => (s.find e.1).isNone)) = [] := by
    apply List.filter_eq_nil_iff.mpr
    intro e he
    have : (s.find e.1).isSome := find_isSome_iff_mem_keys.mpr (List.mem_map_of_mem Prod.fst he)
    simp [Option.isNone_iff_eq_none]
    rcases hfind : s.find e.1 with _ | v
    · rw [hfind] at this; simp at this
    · simp
  have hmod : (s.filter (fun e =>
      match s.find e.1 with
      | some oldHash => decide (oldHash ≠ e.2)
      | none => false)) = [] := by
    apply List.filter_eq_nil_iff.mpr
    rintro ⟨p, v⟩ he
    have : s.find p = some v := (mem_iff_find_of_nodup hs).mp he
    simp [this]
  simp only [Diff, hadd, hmod]
  rfl

/-- Claim C5: `Diff(old, new)` partitions the union of the two key sets into
the four disjoint classes added, modified, removed and unchanged, each
returned list is sorted, and the diff of a snapshot with itself is empty. -/
theorem diff_partitions_key_union (old new : SumSnapshot)
    (hold : old.keys.Nodup) (hnew : new.keys.Nodup) :
    (∀ x, (x ∈ old.keys ∨ x ∈ new.keys) ↔
      (x ∈ (Diff old new).added ∨ x ∈ (Diff old new).modified ∨
       x ∈ (Diff old new).removed ∨ x ∈ unchangedKeys old new)) ∧
    (∀ x, ¬(x ∈ (Diff old new).added ∧ x ∈ (Diff old new).modified) ∧
      ¬(x ∈ (Diff old new).added ∧ x ∈ (Diff old new).removed) ∧
      ¬(x ∈ (Diff old new).added ∧ x ∈ unchangedKeys old new) ∧
      ¬(x ∈ (Diff old new).modified ∧ x ∈ (Diff old new).removed) ∧
      ¬(x ∈ (Diff old new).modified ∧ x ∈ unchangedKeys old new) ∧
      ¬(x ∈ (Diff old new).removed ∧ x ∈ unchangedKeys old new)) ∧
    List.Sorted strRel (Diff old new).added ∧
    List.Sorted strRel (Diff old new).modified ∧
    List.Sorted strRel (Diff old new).removed ∧
    (Diff old old).IsEmpty = true := by
  refine ⟨?_, ?_, List.sorted_insertionSort _ _, List.sorted_insertionSort _ _,
    List.sorted_insertionSort _ _, diff_self_empty hold⟩
  · intro x
    constructor
    · intro hx
      by_cases hxnew : x ∈ new.keys
      · have hsome : (new.find x).isSome := find_isSome_iff_mem_keys.mpr hxnew
        rcases hfindN : new.find x with _ | hN
        · rw [hfindN] at hsome; simp at hsome
        · rcases hfindO : old.find x with _ | hO
          · exact Or.inl (mem_added_iff.mpr ⟨hxnew, hfindO⟩)
          · by_cases heq : hO = hN
            · refine Or.inr (Or.inr (Or.inr (mem_unchanged_iff.mpr ⟨hN, ?_, ?_⟩)))
              · exact (mem_iff_find_of_nodup hnew).mpr hfindN
              · rw [hfindO, heq]
            · exact Or.inr (Or.inl ((mem_modified_iff hnew).mpr
                ⟨hN, hfindN, hO, hfindO, heq⟩))
      · rcases hx with hxold | hxnew2
        · have hnone : new.find x = none := by
            rcases hfind : new.find x with _ | v
            · rfl
            · exact absurd (find_isSome_iff_mem_keys.mp (by simp [hfind])) hxnew
          exact Or.inr (Or.inr (Or.inl (mem_removed_iff.mpr ⟨hxold, hnone⟩)))
        · exact absurd hxnew2 hxnew
    · rintro (h | h | h | h)
      · exact Or.inr (mem_added_iff.mp h).1
      · rcases (mem_modified_iff hnew).mp h with ⟨hN, hfindN, _⟩
        exact Or.inr (find_isSome_iff_mem_keys.mp (by simp [hfindN]))
      · exact Or.inl (mem_removed_iff.mp h).1
      · rcases mem_unchanged_iff.mp h with ⟨hN, hmem, _⟩
        exact Or.inr (List.mem_map_of_mem Prod.fst hmem)
  · intro x
    refine ⟨?_, ?_, ?_, ?_, ?_, ?_⟩
    · rintro ⟨ha, hm⟩
      rcases (mem_modified_iff hnew).mp hm with ⟨_, _, hO, hfindO, _⟩
      rw [(mem_added_iff.mp ha).2] at hfindO
      exact Option.noConfusion hfindO
    · rintro ⟨ha, hr⟩
      have h1 : (new.find x).isSome := find_isSome_iff_mem_keys.mpr (mem_added_iff.mp ha).1
      rw [(mem_removed_iff.mp hr).2] at h1
      simp at h1
    · rintro ⟨ha, hu⟩
      rcases mem_unchanged_iff.mp hu with ⟨hN, _, hfindO⟩
      rw [(mem_added_iff.mp ha).2] at hfindO
      exact Option.noConfusion hfindO
    · rintro ⟨hm, hr⟩
      rcases (mem_modified_iff hnew).mp hm with ⟨hN, hfindN, _⟩
      rw [(mem_removed_iff.mp hr).2] at hfindN
      exact Option.noConfusion hfindN
    · rintro ⟨hm, hu⟩
      rcases (mem_modified_iff hnew).mp hm with ⟨hN, hfindN, hO, hfindO, hne⟩
      rcases mem_unchanged_iff.mp hu with ⟨hN2, hmem2, hfindO2⟩
      have h1 : new.find x = some hN2 := (mem_iff_find_of_nodup hnew).mp hmem2
      rw [hfindN] at h1
      rw [hfindO] at hfindO2
      exact hne (Option.some.inj hfindO2 |>.trans (Option.some.inj h1).symm)
    · rintro ⟨hr, hu⟩
      rcases mem_unchanged_iff.mp hu with ⟨hN, hmem, _⟩
      have h1 : (new.find x).isSome :=
        find_isSome_iff_mem_keys.mpr (List.mem_map_of_mem Prod.fst hmem)
      rw [(mem_removed_iff.mp hr).2] at h1
      simp at h1

/-- Witness for C5 at a concrete pair of snapshots. -/
theorem diff_partitions_key_union_witness :
    ((SumSnapshot.keys [("a", "1"), ("b", "2")]).Nodup ∧
     (SumSnapshot.keys [("b", "3"), ("c", "4")]).Nodup) ∧
    ((∀ x, (x ∈ SumSnapshot.keys [("a", "1"), ("b", "2")] ∨
        x ∈ SumSnapshot.keys [("b", "3"), ("c", "4")]) ↔
      (x ∈ (Diff [("a", "1"), ("b", "2")] [("b", "3"), ("c", "4")]).added ∨
       x ∈ (Diff [("a", "1"), ("b", "2")] [("b", "3"), ("c", "4")]).modified ∨
       x ∈ (Diff [("a", "1"), ("b", "2")] [("b", "3"), ("c", "4")]).removed ∨
       x ∈ unchangedKeys [("a", "1"), ("b", "2")] [("b", "3"), ("c", "4")])) ∧
    (∀ x, ¬(x ∈ (Diff [("a", "1"), ("b", "2")] [("b", "3"), ("c", "4")]).added ∧
        x ∈ (Diff [("a", "1"), ("b", "2")] [("b", "3"), ("c", "4")]).modified) ∧
      ¬(x ∈ (Diff [("a", "1"), ("b", "2")] [("b", "3"), ("c", "4")]).added ∧
        x ∈ (Diff [("a", "1"), ("b", "2")] [("b", "3"), ("c", "4")]).removed) ∧
      ¬(x ∈ (Diff [("a", "1"), ("b", "2")] [("b", "3"), ("c", "4")]).added ∧
        x ∈ unchangedKeys [("a", "1"), ("b", "2")] [("b", "3"), ("c", "4")]) ∧
      ¬(x ∈ (Diff [("a", "1"), ("b", "2")] [("b", "3"), ("c", "4")]).modified ∧
        x ∈ (Diff [("a", "1"), ("b", "2")] [("b", "3"), ("c", "4")]).removed) ∧
      ¬(x ∈ (Diff [("a", "1"), ("b", "2")] [("b", "3"), ("c", "4")]).modified ∧
        x ∈ unchangedKeys [("a", "1"), ("b", "2")] [("b", "3"), ("c", "4")]) ∧
      ¬(x ∈ (Diff [("a", "1"), ("b", "2")] [("b", "3"), ("c", "4")]).removed ∧
        x ∈ unchangedKeys [("a", "1"), ("b", "2")] [("b", "3"), ("c", "4")])) ∧
    List.Sorted strRel (Diff [("a", "1"), ("b", "2")] [("b", "3"), ("c", "4")]).added ∧
    List.Sorted strRel (Diff [("a", "1"), ("b", "2")] [("b", "3"), ("c", "4")]).modified ∧
    List.Sorted strRel (Diff [("a", "1"), ("b", "2")] [("b", "3"), ("c", "4")]).removed ∧
    (Diff [("a", "1"), ("b", "2")] [("a", "1"), ("b", "2")]).IsEmpty = true) :=
  ⟨⟨by decide, by decide⟩,
   diff_partitions_key_union [("a", "1"), ("b", "2")] [("b", "3"), ("c", "4")]
     (by decide) (by decide)⟩

end GoRun.Sumfile

namespace GoRun.Glob

/-- `Pattern` of internal/glob: a single glob pattern, either include or
exclude. -/
structure Pattern where
  raw : String
  negated : Bool
deriving DecidableEq, Repr

/-- Insertion into the `includes` set (`includes[m] = true` on a Go map,
modelled as a duplicate-free list). -/
def setInsert (s : List String) (x : String) : List String :=
  if x ∈ s then s else s ++ [x]

/-- Removal from the `includes` set (`delete(includes, m)`). -/
def setRemove (s : List String) (x : String) : List String :=
  s.filter (fun y => y ≠ x)

/-- `ExpandPatterns` of internal/glob: first union the globMatches of every
include pattern into a set, then delete the globMatches of every exclude
pattern, then sort.  The per-pattern match enumeration
(`expandSinglePattern`, delegating to the doublestar library over the
root directory) is abstracted as the function `globMatches`. -/
def ExpandPatterns (globMatches : Pattern → List String) (patterns : List Pattern) :
    List String :=
  let includes := patterns.foldl
    (fun s p => if p.negated then s else (globMatches p).foldl setInsert s) []
  let afterExcludes := patterns.foldl
    (fun s p => if p.negated then (globMatches p).foldl setRemove s else s) includes
  sortStrings afterExcludes

theorem mem_setInsert {s : List String} {x y : String} :
    x ∈ setInsert s y ↔ x ∈ s ∨ x = y := by
  by_cases h : y ∈ s
  · simp only [setInsert, if_pos h]
    constructor
    · exact Or.inl
    · rintro (hx | rfl) <;> assumption
  · simp [setInsert, if_neg h]

theorem nodup_setInsert {s : List String} (h : s.Nodup) (y : String) :
    (setInsert s y).Nodup := by
  by_cases hy : y ∈ s
  · simpa [setInsert, hy] using h
  · rw [setInsert, if_neg hy]
    refine List.Nodup.append h (List.nodup_singleton y) ?_
    intro a ha hb
    rw [List.mem_singleton] at hb
    subst hb
    exact hy ha

theorem mem_foldl_setInsert {ms : List String} {s : List String} {x : String} :
    x ∈ ms.foldl setInsert s ↔ x ∈ s ∨ x ∈ ms := by
  induction ms generalizing s with
  | nil => simp
  | cons m rest ih =>
    simp only [List.foldl_cons, ih, mem_setInsert, List.mem_cons]
    tauto

theorem nodup_foldl_setInsert {ms : List String} {s : List String} (h : s.Nodup) :
    (ms.foldl setInsert s).Nodup := by
  induction ms generalizing s with
  | nil => exact h
  | cons m rest ih => exact ih (nodup_setInsert h m)

theorem mem_setRemove {s : List String} {x y : String} :
    x ∈ setRemove s y ↔ x ∈ s ∧ x ≠ y := by
  simp [setRemove]

theorem mem_foldl_setRemove {ms : List String} {s : List String} {x : String} :
    x ∈ ms.foldl setRemove s ↔ x ∈ s ∧ x ∉ ms := by
  induction ms generalizing s with
  | nil => simp
  | cons m rest ih =>
    simp only [List.foldl_cons, ih, mem_setRemove, List.mem_cons]
    tauto

theorem nodup_foldl_setRemove {ms : List String} {s : List String} (h : s.Nodup) :
    (ms.foldl setRemove s).Nodup := by
  induction ms generalizing s with
  | nil => exact h
  | cons m rest ih => exact ih (List.Nodup.filter _ h)

theorem mem_includes_fold (globMatches : Pattern → List String) (patterns : List Pattern)
    {s : List String} {x : String} :
    x ∈ patterns.foldl
        (fun s p => if p.negated then s else (globMatches p).foldl setInsert s) s ↔
      x ∈ s ∨ ∃ p ∈ patterns, p.negated = false ∧ x ∈ globMatches p := by
  induction patterns generalizing s with
  | nil => simp
  | cons p rest ih =>
    by_cases hneg : p.negated
    · simp only [List.foldl_cons, if_pos hneg, ih, List.mem_cons]
      constructor
      · rintro (hx | ⟨q, hq, hqn, hqm⟩)
        · exact Or.inl hx
        · exact Or.inr ⟨q, Or.inr hq, hqn, hqm⟩
      · rintro (hx | ⟨q, hq | hq, hqn, hqm⟩)
        · exact Or.inl hx
        · subst hq; rw [hneg] at hqn; exact absurd hqn (by simp)
        · exact Or.inr ⟨q, hq, hqn, hqm⟩
    · simp only [List.foldl_cons, if_neg hneg, ih, mem_foldl_setInsert, List.mem_cons]
      constructor
      · rintro ((hx | hm) | ⟨q, hq, hqn, hqm⟩)
        · exact Or.inl hx
        · exact Or.inr ⟨p, Or.inl rfl, by simpa using hneg, hm⟩
        · exact Or.inr ⟨q, Or.inr hq, hqn, hqm⟩
      · rintro (hx | ⟨q, hq | hq, hqn, hqm⟩)
        · exact Or.inl (Or.inl hx)
        · subst hq; exact Or.inl (Or.inr hqm)
        · exact Or.inr ⟨q, hq, hqn, hqm⟩

theorem mem_excludes_fold (globMatches : Pattern → List String) (patterns : List Pattern)
    {s : List String} {x : String} :
    x ∈ patterns.foldl
        (fun s p => if p.negated then (globMatches p).foldl setRemove s else s) s ↔
      x ∈ s ∧ ¬ ∃ p ∈ patterns, p.negated = true ∧ x ∈ globMatches p := by
  induction patterns generalizing s with
  | nil => simp
  | cons p rest ih =>
    by_cases hneg : p.negated
    · simp only [List.foldl_cons, if_pos hneg, ih, mem_foldl_setRemove, List.mem_cons]
      constructor
      · rintro ⟨⟨hx, hnm⟩, hrest⟩
        refine ⟨hx, ?_⟩
        rintro ⟨q, hq | hq, hqn, hqm⟩
        · subst hq; exact hnm hqm
        · exact hrest ⟨q, hq, hqn, hqm⟩
      · rintro ⟨hx, hno⟩
        refine ⟨⟨hx, fun hm => hno ⟨p, Or.inl rfl, by simpa using hneg, hm⟩⟩, ?_⟩
        rintro ⟨q, hq, hqn, hqm⟩
        exact hno ⟨q, Or.inr hq, hqn, hqm⟩
    · simp only [List.foldl_cons, if_neg hneg, ih, List.mem_cons]
      constructor
      · rintro ⟨hx, hrest⟩
        refine ⟨hx, ?_⟩
        rintro ⟨q, hq | hq, hqn, hqm⟩
        · subst hq; rw [hqn] at hneg; exact hneg rfl
        · exact hrest ⟨q, hq, hqn, hqm⟩
      · rintro ⟨hx, hno⟩
        refine ⟨hx, ?_⟩
        rintro ⟨q, hq, hqn, hqm⟩
        exact hno ⟨q, Or.inr hq, hqn, hqm⟩

theorem nodup_excludes_fold (globMatches : Pattern → List String) (patterns : List Pattern)
    {s : List String} (h : s.Nodup) :
    (patterns.foldl
      (fun s p => if p.negated then (globMatches p).foldl setRemove s else s) s).Nodup := by
  induction patterns generalizing s with
  | nil => exact h
  | cons p rest ih =>
    by_cases hneg : p.negated
    · simp only [List.foldl_cons, if_pos hneg]
      exact ih (nodup_foldl_setRemove h)
    · simp only [List.foldl_cons, if_neg hneg]
      exact ih h

theorem nodup_includes_fold (globMatches : Pattern → List String)
    (patterns : List Pattern) {s : List String} (h : s.Nodup) :
    (patterns.foldl
      (fun s p => if p.negated then s else (globMatches p).foldl setInsert s) s).Nodup := by
  induction patterns generalizing s with
  | nil => exact h
  | cons p rest ih =>
    by_cases hneg : p.negated
    · simp only [List.foldl_cons, if_pos hneg]
      exact ih h
    · simp only [List.foldl_cons, if_neg hneg]
      exact ih (nodup_foldl_setInsert h)

/-- Claim C4: for every match enumeration over a directory tree and every
pattern sequence, `ExpandPatterns` is sorted ascending, duplicate-free,
and contains exactly the union of the include globMatches minus the union of
the exclude globMatches — an excluded match is never re-included, whatever
the order of the patterns. -/
theorem expandPatterns_spec (globMatches : Pattern → List String)
    (patterns : List Pattern) :
    List.Sorted strRel (ExpandPatterns globMatches patterns) ∧
    (ExpandPatterns globMatches patterns).Nodup ∧
    ∀ x, x ∈ ExpandPatterns globMatches patterns ↔
      ((∃ p ∈ patterns, p.negated = false ∧ x ∈ globMatches p) ∧
       ¬ ∃ p ∈ patterns, p.negated = true ∧ x ∈ globMatches p) := by
  refine ⟨List.sorted_insertionSort _ _, ?_, ?_⟩
  · exact sortStrings_nodup (nodup_excludes_fold globMatches patterns
      (nodup_includes_fold globMatches patterns List.nodup_nil))
  · intro x
    rw [ExpandPatterns]
    simp only [mem_sortStrings, mem_excludes_fold, mem_includes_fold]
    simp

end GoRun.Glob

namespace GoRun.Runctl

/-- `TargetState` of pkg/runctl. -/
inductive TargetState where
  | idle
  | starting
  | running
  | stopped
  | error
  | exited
deriving DecidableEq, Repr

/-- The lock-guarded status fields of a pkg/runctl `target`.  Times are
abstract tick values; the child PID is a natural number (0 meaning no
process). -/
structure TStatus where
  state : TargetState
  pid : Nat
  lastExecTime : Option Nat
  lastExecDuration : Option Nat
  lastExecResult : String
  lastExecFailure : String
  lastStartTime : Option Nat
  restartCount : Nat
  buildCount : Nat
  enabled : Bool
deriving DecidableEq, Repr

/-- `newTarget`: a target starts in state idle with PID 0, no recorded
times and zero counters. -/
def initialStatus (enabled : Bool) : TStatus :=
  { state := .idle, pid := 0, lastExecTime := none, lastExecDuration := none,
    lastExecResult := "", lastExecFailure := "", lastStartTime := none,
    restartCount := 0, buildCount := 0, enabled := enabled }

/-- `target.Start` (the lock-guarded guard section): refuse when the
target is already running or starting, otherwise move to starting. -/
def targetStart (st : TStatus) : Except String TStatus :=
  if st.state = .running ∨ st.state = .starting then
    .error "target is already running"
  else
    .ok { st with state := .starting }

/-- `Controller.EnableTarget`: set the enabled flag, then `Start`. -/
def enableTarget (st : TStatus) : Except String TStatus :=
  targetStart { st with enabled := true }

/-- The status-mutating transitions of a target: the `Start` guard, the
config-load failure path, the Runner callbacks `onExecStart`,
`onExecDone`, `onProcessStart`, `onProcessExit`, the run-loop completion
`handleRunComplete`, and the control operations `StopExec` (successful
channel send), `Stop` and `Kill`. -/
inductive TEvent where
  | startReq
  | loadConfigFail (msg : String)
  | execStart (now : Nat)
  | execDone (dur : Nat) (failure : Option String)
  | processStart (pid now : Nat)
  | processExit (code : Int)
  | runComplete (cancelled : Bool) (failure : Option String)
  | stopExec
  | stopTarget
  | killTarget
deriving DecidableEq, Repr

/-- One status transition, mirroring the corresponding lock-guarded
mutation in pkg/runctl's target. -/
def applyEvent (st : TStatus) : TEvent → TStatus
  | .startReq =>
    match targetStart st with
    | .ok st1 => st1
    | .error _ => st
  | .loadConfigFail msg => { st with state := .error, lastExecFailure := msg }
  | .execStart now =>
    { st with lastExecTime := some now, state := .starting,
              buildCount := st.buildCount + 1 }
  | .execDone dur failure =>
    match failure with
    | some msg =>
      { st with lastExecDuration := some dur, lastExecResult := "failed",
                lastExecFailure := msg, state := .error }
    | none =>
      { st with lastExecDuration := some dur, lastExecResult := "success",
                lastExecFailure := "" }
  | .processStart pid now =>
    { st with pid := pid, lastStartTime := some now, state := .running,
              restartCount :=
                if 0 < st.restartCount ∨ st.lastExecTime.isSome then
                  st.restartCount + 1
                else st.restartCount }
  | .processExit code =>
    { st with pid := 0, state := if code = 0 then .exited else .error }
  | .runComplete cancelled failure =>
    if cancelled then
      { st with state := .stopped, pid := 0 }
    else
      match failure with
      | some msg => { st with state := .error, lastExecFailure := msg, pid := 0 }
      | none => { st with pid := 0 }
  | .stopExec => { st with state := .stopped, pid := 0 }
  | .stopTarget => { st with state := .stopped }
  | .killTarget => { st with state := .stopped }

/-- Environment-provided facts about an event: the operating system hands
`onProcessStart` a strictly positive child PID, and the run loop returns
nil only when its context was cancelled, so `handleRunComplete` sees
either a cancelled context or a non-nil error. -/
def validEvent : TEvent → Prop
  | .processStart pid _ => 0 < pid
  | .runComplete cancelled failure => cancelled = true ∨ failure.isSome = true
  | _ => True

instance : DecidablePred validEvent := fun e => by
  cases e <;> simp only [validEvent] <;> infer_instance

/-- The status reached from a fresh enabled target after a sequence of
transitions. -/
def runTrace (evs : List TEvent) : TStatus :=
  evs.foldl applyEvent (initialStatus true)

/-- The inductive PID/state invariant that the transition system does
maintain. -/
def PidInvariant (st : TStatus) : Prop :=
  (st.state = .running → st.pid ≠ 0) ∧
  ((st.state = .idle ∨ st.state = .exited) → st.pid = 0)

instance : DecidablePred PidInvariant := fun st => by
  unfold PidInvariant; infer_instance

theorem pidInvariant_step {st : TStatus} (h : PidInvariant st) {e : TEvent}
    (hv : validEvent e) : PidInvariant (applyEvent st e) := by
  obtain ⟨h1, h2⟩ := h
  cases e with
  | startReq =>
    by_cases hg : st.state = .running ∨ st.state = .starting
    · constructor <;> simp_all [applyEvent, targetStart]
    · constructor <;> simp_all [applyEvent, targetStart]
  | loadConfigFail msg => constructor <;> simp_all [applyEvent]
  | execStart now => constructor <;> simp_all [applyEvent]
  | execDone dur failure =>
    cases failure <;> (constructor <;> simp_all [applyEvent])
  | processStart pid now =>
    simp only [validEvent] at hv
    constructor <;> simp_all [applyEvent]
    omega
  | processExit code =>
    by_cases hc : code = 0 <;> (constructor <;> simp_all [applyEvent])
  | runComplete cancelled failure =>
    cases cancelled with
    | true => constructor <;> simp_all [applyEvent]
    | false =>
      simp only [validEvent] at hv
      rcases hv with hv | hv
      · exact absurd hv (by simp)
      · rcases failure with _ | msg
        · simp at hv
        · constructor <;> simp_all [applyEvent]
  | stopExec => constructor <;> simp_all [applyEvent]
  | stopTarget => constructor <;> simp_all [applyEvent]
  | killTarget => constructor <;> simp_all [applyEvent]

theorem pidInvariant_foldl {st : TStatus} (h : PidInvariant st) {evs : List TEvent}
    (hv : ∀ e ∈ evs, validEvent e) : PidInvariant (evs.foldl applyEvent st) := by
  induction evs generalizing st with
  | nil => exact h
  | cons e rest ih =>
    exact ih (pidInvariant_step h (hv e (List.mem_cons_self e rest)))
      (fun f hf => hv f (List.mem_cons_of_mem e hf))

/-- Counterexample to claim C1: a valid transition sequence — start, first
pipeline run, process start, then a second pipeline run that fails —
leaves the target in state error while its PID is still the live child's
PID 5, so `pid ≠ 0 ⇔ state = running` does not hold (`onExecDone` on
failure sets state to error without clearing the PID, matching spec
scenario 1 where a failed rebuild keeps the previous process alive). -/
theorem pid_zero_iff_running_false :
    (∀ e ∈ [TEvent.startReq, TEvent.execStart 1, TEvent.execDone 3 none,
            TEvent.processStart 5 2, TEvent.execStart 4,
            TEvent.execDone 2 (some "exit status 1")], validEvent e) ∧
    (runTrace [TEvent.startReq, TEvent.execStart 1, TEvent.execDone 3 none,
               TEvent.processStart 5 2, TEvent.execStart 4,
               TEvent.execDone 2 (some "exit status 1")]).state = .error ∧
    (runTrace [TEvent.startReq, TEvent.execStart 1, TEvent.execDone 3 none,
               TEvent.processStart 5 2, TEvent.execStart 4,
               TEvent.execDone 2 (some "exit status 1")]).pid = 5 := by
  refine ⟨by decide, by decide, by decide⟩

/-- Claim C1 (amended): along every valid transition sequence the target
satisfies `state = running → pid ≠ 0` and `state ∈ {idle, exited} →
pid = 0`; the full biconditional fails because a failed pipeline
(`onExecDone` with an error) and a rebuild in progress (`onExecStart`)
preserve the previous PID while moving to error resp. starting, and
`Stop`/`Kill` move to stopped before `handleRunComplete` clears the PID. -/
theorem pid_state_invariant (evs : List TEvent) (hv : ∀ e ∈ evs, validEvent e) :
    ((runTrace evs).state = .running → (runTrace evs).pid ≠ 0) ∧
    (((runTrace evs).state = .idle ∨ (runTrace evs).state = .exited) →
      (runTrace evs).pid = 0) :=
  pidInvariant_foldl (by constructor <;> simp [initialStatus]) hv

/-- Witness for the amended C1 on a concrete valid trace. -/
theorem pid_state_invariant_witness :
    (∀ e ∈ [TEvent.startReq, TEvent.execStart 1, TEvent.execDone 3 none,
            TEvent.processStart 7 2], validEvent e) ∧
    (((runTrace [TEvent.startReq, TEvent.execStart 1, TEvent.execDone 3 none,
                 TEvent.processStart 7 2]).state = .running →
      (runTrace [TEvent.startReq, TEvent.execStart 1, TEvent.execDone 3 none,
                 TEvent.processStart 7 2]).pid ≠ 0) ∧
     (((runTrace [TEvent.startReq, TEvent.execStart 1, TEvent.execDone 3 none,
                  TEvent.processStart 7 2]).state = .idle ∨
       (runTrace [TEvent.startReq, TEvent.execStart 1, TEvent.execDone 3 none,
                  TEvent.processStart 7 2]).state = .exited) →
      (runTrace [TEvent.startReq, TEvent.execStart 1, TEvent.execDone 3 none,
                 TEvent.processStart 7 2]).pid = 0)) :=
  ⟨by decide,
   pid_state_invariant [TEvent.startReq, TEvent.execStart 1, TEvent.execDone 3 none,
                        TEvent.processStart 7 2] (by decide)⟩

end GoRun.Runctl

namespace GoRun.Runctl

/-- Whether a transition is the `onProcessStart` callback. -/
def isProcessStart : TEvent → Bool
  | .processStart _ _ => true
  | _ => false

/-- Counterexample to claim C2: the composed start-up flow fires the
pipeline-start callback before the first process start (`Run` calls
`OnExecStart`/`OnBuildStart` before building and then starts the
process), so `lastExecTime` is already recorded at the first
`onProcessStart` and the restart counter is incremented: after the first
successful start `restartCount = 1`, not 0.  The trace contains exactly
one process-start transition. -/
theorem restartCount_zero_after_first_start_false :
    ((List.filter isProcessStart
        [TEvent.startReq, TEvent.execStart 1, TEvent.execDone 2 none,
         TEvent.processStart 7 3]).length = 1) ∧
    (runTrace [TEvent.startReq, TEvent.execStart 1, TEvent.execDone 2 none,
               TEvent.processStart 7 3]).state = .running ∧
    (runTrace [TEvent.startReq, TEvent.execStart 1, TEvent.execDone 2 none,
               TEvent.processStart 7 3]).restartCount = 1 := by
  refine ⟨by decide, by decide, by decide⟩

/-- Whether a transition is the `onExecStart` callback. -/
def isExecStart : TEvent → Bool
  | .execStart _ => true
  | _ => false

/-- Whether a transition sequence contains a pipeline-start callback. -/
def hasExecStart (evs : List TEvent) : Bool :=
  evs.any isExecStart

theorem restartCount_const_of_no_processStart {st : TStatus} {evs : List TEvent}
    (h : ∀ e ∈ evs, isProcessStart e = false) :
    (evs.foldl applyEvent st).restartCount = st.restartCount ∧
    (evs.foldl applyEvent st).lastExecTime.isSome =
      (st.lastExecTime.isSome || hasExecStart evs) := by
  induction evs generalizing st with
  | nil => simp [hasExecStart]
  | cons e rest ih =>
    have he : isProcessStart e = false := h e (List.mem_cons_self e rest)
    have hrest : ∀ f ∈ rest, isProcessStart f = false :=
      fun f hf => h f (List.mem_cons_of_mem e hf)
    rcases @ih (applyEvent st e) hrest with ⟨ih1, ih2⟩
    have hcons : hasExecStart (e :: rest) = (isExecStart e || hasExecStart rest) := rfl
    constructor
    · rw [List.foldl_cons, ih1]
      cases e with
      | startReq =>
        by_cases hg : st.state = .running ∨ st.state = .starting <;>
          simp [applyEvent, targetStart, hg]
      | loadConfigFail msg => rfl
      | execStart now => rfl
      | execDone dur failure => cases failure <;> rfl
      | processStart pid now => simp [isProcessStart] at he
      | processExit code => rfl
      | runComplete cancelled failure =>
        cases cancelled <;> [skip; rfl]
        cases failure <;> rfl
      | stopExec => rfl
      | stopTarget => rfl
      | killTarget => rfl
    · rw [List.foldl_cons, ih2, hcons]
      cases e with
      | startReq =>
        by_cases hg : st.state = .running ∨ st.state = .starting <;>
          simp [applyEvent, targetStart, hg, isExecStart]
      | loadConfigFail msg => simp [applyEvent, isExecStart]
      | execStart now => simp [applyEvent, isExecStart]
      | execDone dur failure => cases failure <;> simp [applyEvent, isExecStart]
      | processStart pid now => simp [isProcessStart] at he
      | processExit code => simp [applyEvent, isExecStart]
      | runComplete cancelled failure =>
        cases cancelled
        · cases failure <;> simp [applyEvent, isExecStart]
        · simp [applyEvent, isExecStart]
      | stopExec => simp [applyEvent, isExecStart]
      | stopTarget => simp [applyEvent, isExecStart]
      | killTarget => simp [applyEvent, isExecStart]

/-- Claim C2 (amended): `onProcessStart` increments the restart counter
exactly when `restartCount > 0` or a pipeline start has been recorded
(`lastExecTime` set); consequently, after a first process start preceded
by a pipeline run the counter is 1, and it is 0 only when the first start
was not preceded by any pipeline start. -/
theorem restartCount_first_start (evs : List TEvent)
    (h : ∀ e ∈ evs, isProcessStart e = false) (p t : Nat) :
    (∀ st : TStatus,
      (applyEvent st (.processStart p t)).restartCount =
        (if 0 < st.restartCount ∨ st.lastExecTime.isSome then
          st.restartCount + 1 else st.restartCount)) ∧
    (runTrace (evs ++ [.processStart p t])).restartCount =
      (if hasExecStart evs then 1 else 0) := by
  constructor
  · intro st
    rfl
  · rcases @restartCount_const_of_no_processStart (initialStatus true) evs h
      with ⟨h1, h2⟩
    have h2x : (evs.foldl applyEvent (initialStatus true)).lastExecTime.isSome =
        hasExecStart evs := by
      rw [h2]
      rfl
    rw [runTrace, List.foldl_append]
    simp only [List.foldl_cons, List.foldl_nil, applyEvent]
    rw [h1, h2x]
    have hinit1 : (initialStatus true).restartCount = 0 := rfl
    rw [hinit1]
    cases hb : hasExecStart evs <;> simp

/-- Witness for the amended C2: after `[startReq, execStart, execDone ok]`
the first process start sets `restartCount = 1`. -/
theorem restartCount_first_start_witness :
    (∀ e ∈ [TEvent.startReq, TEvent.execStart 1, TEvent.execDone 2 none],
       isProcessStart e = false) ∧
    ((∀ st : TStatus,
      (applyEvent st (.processStart 7 3)).restartCount =
        (if 0 < st.restartCount ∨ st.lastExecTime.isSome then
          st.restartCount + 1 else st.restartCount)) ∧
    (runTrace ([TEvent.startReq, TEvent.execStart 1, TEvent.execDone 2 none] ++
        [.processStart 7 3])).restartCount =
      (if hasExecStart [TEvent.startReq, TEvent.execStart 1, TEvent.execDone 2 none]
        then 1 else 0)) :=
  ⟨by decide,
   restartCount_first_start [TEvent.startReq, TEvent.execStart 1, TEvent.execDone 2 none]
     (by decide) 7 3⟩

/-- Claim C10: `Start` on a running or starting target returns the
already-running error and leaves the status unchanged; in every other
state it first moves the state to starting; hence the HTTP enable path
(`EnableTarget` = set enabled, then `Start`) reports an error on an
already-running target instead of starting a second instance. -/
theorem start_guard_spec (st : TStatus) :
    ((st.state = .running ∨ st.state = .starting) →
      targetStart st = .error "target is already running" ∧
      applyEvent st .startReq = st) ∧
    ((st.state ≠ .running ∧ st.state ≠ .starting) →
      targetStart st = .ok { st with state := .starting }) ∧
    ((st.state = .running ∨ st.state = .starting) →
      enableTarget st = .error "target is already running") := by
  refine ⟨?_, ?_, ?_⟩
  · intro hg
    constructor
    · simp [targetStart, hg]
    · simp [applyEvent, targetStart, hg]
  · intro hg
    have : ¬ (st.state = .running ∨ st.state = .starting) := by tauto
    simp [targetStart, this]
  · intro hg
    have : ({ st with enabled := true } : TStatus).state = .running ∨
        ({ st with enabled := true } : TStatus).state = .starting := hg
    simp [enableTarget, targetStart, this]

/-- Witness for C10: the guard at a running target (errors, status kept)
and at a fresh idle one (moves to starting); the enable path errors on
the running target. -/
theorem start_guard_spec_witness :
    (targetStart { initialStatus true with state := TargetState.running, pid := 5 } =
        .error "target is already running" ∧
     applyEvent { initialStatus true with state := TargetState.running, pid := 5 }
        .startReq =
        { initialStatus true with state := TargetState.running, pid := 5 }) ∧
    (targetStart (initialStatus true) =
        .ok { initialStatus true with state := .starting }) ∧
    (enableTarget { initialStatus true with state := TargetState.running, pid := 5 } =
        .error "target is already running") :=
  ⟨(start_guard_spec
      { initialStatus true with state := TargetState.running, pid := 5 }).1
      (Or.inl rfl),
   (start_guard_spec (initialStatus true)).2.1 (by decide),
   (start_guard_spec
      { initialStatus true with state := TargetState.running, pid := 5 }).2.2
      (Or.inl rfl)⟩

end GoRun.Runctl

namespace GoRun.Runner

/-- `ExitInfo` of internal/runner: how the child exited. -/
structure ExitInfo where
  exitCode : Int
  failure : Option String
deriving DecidableEq, Repr

/-- The process-lifecycle state of a `Runner`: the live child (by PID,
`none` when no process), the `stopping` flag, the single-slot `exited`
channel, and the last built binary path. -/
structure RunnerState where
  cmd : Option Nat
  stopping : Bool
  exited : Option ExitInfo
  binPath : String
deriving DecidableEq, Repr

/-- Observable process-control actions taken while restarting. -/
inductive RAction where
  | sigterm (pid : Nat)
  | drainExited
  | spawn (pid : Nat)
deriving DecidableEq, Repr

/-- Outcome of `Build` (pipeline steps plus `go build`): on success the
new binary path, on failure the error; the build never signals the
managed process and only mutates `binPath` on success. -/
inductive BuildResult where
  | ok (binPath : String)
  | fail (msg : String)
deriving DecidableEq, Repr

/-- `Runner.Build`: on success record the new binary path; on failure
leave the runner untouched. -/
def runnerBuild (st : RunnerState) : BuildResult → RunnerState × Except String Unit
  | .ok bp => ({ st with binPath := bp }, .ok ())
  | .fail msg => (st, .error msg)

/-- `Runner.Stop`: clear the child reference and set the stopping flag;
SIGTERM the group when a process was running (the 5-second SIGKILL
escalation is a timing detail of the same termination). -/
def runnerStop (st : RunnerState) : RunnerState × List RAction :=
  ({ st with cmd := none, stopping := true },
   match st.cmd with
   | none => []
   | some p => [.sigterm p])

/-- The non-blocking drain of the `exited` channel in `Restart`. -/
def drainExitSlot (st : RunnerState) : RunnerState × List RAction :=
  ({ st with exited := none }, [.drainExited])

/-- `Runner.Start`: requires a built binary; clears `stopping` and
records the freshly spawned child. -/
def runnerStart (st : RunnerState) (newPid : Nat) :
    Except String (RunnerState × List RAction) :=
  if st.binPath = "" then .error "no binary built yet"
  else .ok ({ st with stopping := false, cmd := some newPid }, [.spawn newPid])

/-- `Runner.Restart`: build; on failure return it (old process kept); on
success stop the old process, drain any stale exit, then start anew. -/
def runnerRestart (st : RunnerState) (res : BuildResult) (newPid : Nat) :
    RunnerState × List RAction × Except String Unit :=
  match runnerBuild st res with
  | (st1, .error msg) => (st1, [], .error msg)
  | (st1, .ok ()) =>
    let s2 := runnerStop st1
    let s3 := drainExitSlot s2.1
    match runnerStart s3.1 newPid with
    | .error msg => (s3.1, s2.2 ++ s3.2, .error msg)
    | .ok s4 => (s4.1, s2.2 ++ s3.2 ++ s4.2, .ok ())

/-- Claim C3: a failed build makes `Restart` return the failure with the
runner state untouched and no signal sent to the prior process; a
successful build stops the prior process (SIGTERM first, when one was
running), drains the single-slot exit channel, and only then spawns the
new process, which ends up registered with an empty exit slot. -/
theorem runnerRestart_spec (st : RunnerState) (res : BuildResult) (newPid : Nat) :
    (∀ msg, res = .fail msg →
      runnerRestart st res newPid = (st, [], .error msg)) ∧
    (∀ bp, res = .ok bp → bp ≠ "" →
      runnerRestart st res newPid =
        ({ cmd := some newPid, stopping := false, exited := none, binPath := bp },
         (match st.cmd with
          | none => []
          | some p => [RAction.sigterm p]) ++ [.drainExited] ++ [.spawn newPid],
         .ok ())) := by
  constructor
  · rintro msg rfl
    rfl
  · rintro bp rfl hbp
    simp [runnerRestart, runnerBuild, runnerStop, drainExitSlot, runnerStart, hbp]

/-- Witness for C3: both branches at concrete runner states. -/
theorem runnerRestart_spec_witness :
    (runnerRestart ⟨some 4, false, some ⟨2, none⟩, "bin0"⟩ (.fail "compile error") 9 =
      (⟨some 4, false, some ⟨2, none⟩, "bin0"⟩, [], .error "compile error")) ∧
    (runnerRestart ⟨some 4, false, some ⟨2, none⟩, "bin0"⟩ (.ok "bin1") 9 =
      (⟨some 9, false, none, "bin1"⟩,
       [RAction.sigterm 4] ++ [.drainExited] ++ [.spawn 9], .ok ())) :=
  ⟨(runnerRestart_spec ⟨some 4, false, some ⟨2, none⟩, "bin0"⟩ (.fail "compile error") 9).1
     "compile error" rfl,
   (runnerRestart_spec ⟨some 4, false, some ⟨2, none⟩, "bin0"⟩ (.ok "bin1") 9).2
     "bin1" rfl (by decide)⟩

end GoRun.Runner

namespace GoRun.Watcher

open GoRun.Sumfile

/-- One step of `mergeChanges`' dedup loop: `seen` is the set of paths
already emitted, the second component is the output list being built. -/
def dedupStep (acc : List String × List String) (f : String) :
    List String × List String :=
  if f ∈ acc.1 then acc else (f :: acc.1, acc.2 ++ [f])

/-- `mergeChanges` of internal/watcher: concatenate the two change sets
kind by kind, keeping the first occurrence of every path across all
three lists (a shared `seen` set). -/
def mergeChanges (a b : ChangeSet) : ChangeSet :=
  let s1 := (a.added ++ b.added).foldl dedupStep ([], [])
  let s2 := (a.modified ++ b.modified).foldl dedupStep (s1.1, [])
  let s3 := (a.removed ++ b.removed).foldl dedupStep (s2.1, [])
  ⟨s1.2, s2.2, s3.2⟩

/-- The debounce-timer delivery guard of `Watcher.Run`: a pending change
set is handed to the callback only when present and non-empty. -/
def deliverPending : Option ChangeSet → Option ChangeSet
  | some cs => if cs.IsEmpty then none else some cs
  | none => none

theorem dedup_fold_spec (l : List String) (seen out : List String)
    (hnd : out.Nodup) (hsub : ∀ x ∈ out, x ∈ seen) :
    (l.foldl dedupStep (seen, out)).2.Nodup ∧
    (∀ x ∈ (l.foldl dedupStep (seen, out)).2, x ∈ (l.foldl dedupStep (seen, out)).1) ∧
    (∀ x ∈ seen, x ∈ (l.foldl dedupStep (seen, out)).1) ∧
    (∀ x ∈ (l.foldl dedupStep (seen, out)).2, x ∈ out ∨ x ∉ seen) ∧
    (∀ x ∈ out, x ∈ (l.foldl dedupStep (seen, out)).2) ∧
    ((l.foldl dedupStep (seen, out)).2 = [] →
      out = [] ∧ (l.foldl dedupStep (seen, out)).1 = seen ∧ ∀ x ∈ l, x ∈ seen) := by
  induction l generalizing seen out with
  | nil =>
    refine ⟨hnd, hsub, fun x hx => hx, fun x hx => Or.inl hx, fun x hx => hx, ?_⟩
    intro h
    exact ⟨h, rfl, by simp⟩
  | cons c rest ih =>
    by_cases hc : c ∈ seen
    · have hstep : dedupStep (seen, out) c = (seen, out) := by
        simp [dedupStep, hc]
      rw [List.foldl_cons, hstep]
      rcases ih seen out hnd hsub with ⟨i1, i2, i3, i4, i5, i6⟩
      refine ⟨i1, i2, i3, i4, i5, ?_⟩
      intro h
      rcases i6 h with ⟨o1, o2, o3⟩
      refine ⟨o1, o2, ?_⟩
      intro x hx
      rcases List.mem_cons.mp hx with rfl | hx
      · exact hc
      · exact o3 x hx
    · have hstep : dedupStep (seen, out) c = (c :: seen, out ++ [c]) := by
        simp [dedupStep, hc]
      rw [List.foldl_cons, hstep]
      have hcout : c ∉ out := fun hco => hc (hsub c hco)
      have hnd2 : (out ++ [c]).Nodup := by
        refine List.Nodup.append hnd (List.nodup_singleton c) ?_
        intro a ha hb
        rw [List.mem_singleton] at hb
        subst hb
        exact hcout ha
      have hsub2 : ∀ x ∈ out ++ [c], x ∈ c :: seen := by
        intro x hx
        rcases List.mem_append.mp hx with hx | hx
        · exact List.mem_cons_of_mem c (hsub x hx)
        · rw [List.mem_singleton] at hx
          rw [hx]
          exact List.mem_cons_self _ _
      rcases ih (c :: seen) (out ++ [c]) hnd2 hsub2 with ⟨i1, i2, i3, i4, i5, i6⟩
      refine ⟨i1, i2, ?_, ?_, ?_, ?_⟩
      · intro x hx
        exact i3 x (List.mem_cons_of_mem c hx)
      · intro x hx
        rcases i4 x hx with hx2 | hx2
        · rcases List.mem_append.mp hx2 with hx3 | hx3
          · exact Or.inl hx3
          · rw [List.mem_singleton] at hx3
            subst hx3
            exact Or.inr hc
        · exact Or.inr (fun hs => hx2 (List.mem_cons_of_mem c hs))
      · intro x hx
        exact i5 x (List.mem_append_left _ hx)
      · intro h
        rcases i6 h with ⟨o1, _, _⟩
        exact absurd o1 (by simp)

theorem changeSet_isEmpty_iff {cs : ChangeSet} :
    cs.IsEmpty = true ↔ cs.added = [] ∧ cs.modified = [] ∧ cs.removed = [] := by
  cases cs with
  | mk a m r =>
    simp [ChangeSet.IsEmpty, List.isEmpty_iff, and_assoc]

/-- Counterexample to claim C9: two individually sorted debounced diffs —
first `b` appears, then `a` appears — merge into a pending change set
whose `added` list is `["b", "a"]`, which is not sorted, and which the
delivery guard passes to the callback unchanged. -/
theorem merged_changeset_sorted_false :
    (mergeChanges (Diff [] [("b", "hb")])
        (Diff [("b", "hb")] [("a", "ha"), ("b", "hb")])).added = ["b", "a"] ∧
    ¬ List.Sorted strRel
      (mergeChanges (Diff [] [("b", "hb")])
        (Diff [("b", "hb")] [("a", "ha"), ("b", "hb")])).added ∧
    deliverPending (some (mergeChanges (Diff [] [("b", "hb")])
        (Diff [("b", "hb")] [("a", "ha"), ("b", "hb")]))) =
      some (mergeChanges (Diff [] [("b", "hb")])
        (Diff [("b", "hb")] [("a", "ha"), ("b", "hb")])) := by
  refine ⟨by decide, by decide, by decide⟩

/-- Claim C9 (amended): every ChangeSet the delivery guard hands to the
callback is non-empty; a merged ChangeSet has no duplicate path across
its three lists and is empty exactly when both inputs are empty; the
lists of a single debounced diff are sorted, but a merged ChangeSet
keeps first-seen order and need not be sorted. -/
theorem watcher_changeset_delivery_spec :
    (∀ p cs, deliverPending p = some cs → cs.IsEmpty = false) ∧
    (∀ a b, ((mergeChanges a b).added ++ (mergeChanges a b).modified ++
      (mergeChanges a b).removed).Nodup) ∧
    (∀ a b, (mergeChanges a b).IsEmpty = (a.IsEmpty && b.IsEmpty)) ∧
    (∀ old new, List.Sorted strRel (Diff old new).added ∧
      List.Sorted strRel (Diff old new).modified ∧
      List.Sorted strRel (Diff old new).removed) := by
  refine ⟨?_, ?_, ?_, ?_⟩
  · rintro p cs h
    cases p with
    | none => exact absurd h (by simp [deliverPending])
    | some q =>
      by_cases hq : q.IsEmpty
      · rw [deliverPending, if_pos hq] at h
        exact absurd h (by simp)
      · rw [deliverPending, if_neg hq] at h
        cases h
        simpa using hq
  · intro a b
    rcases dedup_fold_spec (a.added ++ b.added) [] [] List.nodup_nil (by simp)
      with ⟨a1, a2, _, _, _, _⟩
    rcases dedup_fold_spec (a.modified ++ b.modified)
        ((a.added ++ b.added).foldl dedupStep ([], [])).1 [] List.nodup_nil (by simp)
      with ⟨m1, m2, m3, m4, _, _⟩
    rcases dedup_fold_spec (a.removed ++ b.removed)
        ((a.modified ++ b.modified).foldl dedupStep
          (((a.added ++ b.added).foldl dedupStep ([], [])).1, [])).1 [] List.nodup_nil
        (by simp)
      with ⟨r1, _, _, r4, _, _⟩
    have e1 : (mergeChanges a b).added =
        ((a.added ++ b.added).foldl dedupStep ([], [])).2 := rfl
    have e2 : (mergeChanges a b).modified =
        ((a.modified ++ b.modified).foldl dedupStep
          (((a.added ++ b.added).foldl dedupStep ([], [])).1, [])).2 := rfl
    have e3 : (mergeChanges a b).removed =
        ((a.removed ++ b.removed).foldl dedupStep
          (((a.modified ++ b.modified).foldl dedupStep
            (((a.added ++ b.added).foldl dedupStep ([], [])).1, [])).1, [])).2 := rfl
    rw [e1, e2, e3]
    refine List.Nodup.append (List.Nodup.append a1 m1 ?_) r1 ?_
    · intro x hxa hxm
      rcases m4 x hxm with hx | hx
      · simp at hx
      · exact hx (a2 x hxa)
    · intro x hx2 hxr
      rcases r4 x hxr with hx | hx
      · simp at hx
      · rcases List.mem_append.mp hx2 with hxa | hxm
        · exact hx (m3 x (a2 x hxa))
        · exact hx (m2 x hxm)
  · intro a b
    rcases dedup_fold_spec (a.added ++ b.added) [] [] List.nodup_nil (by simp)
      with ⟨_, _, _, _, _, a6⟩
    by_cases hme : (mergeChanges a b).IsEmpty = true
    · rcases changeSet_isEmpty_iff.mp hme with ⟨he1, he2, he3⟩
      rw [mergeChanges] at he1 he2 he3
      simp only at he1 he2 he3
      rcases a6 he1 with ⟨_, hseen1, hall1⟩
      have hadded : a.added ++ b.added = [] := by
        rw [List.eq_nil_iff_forall_not_mem]
        intro x hx
        simpa using hall1 x hx
      rw [hseen1] at he2
      rcases dedup_fold_spec (a.modified ++ b.modified) [] [] List.nodup_nil (by simp)
        with ⟨_, _, _, _, _, m6⟩
      rcases m6 he2 with ⟨_, hseen2, hall2⟩
      have hmod : a.modified ++ b.modified = [] := by
        rw [List.eq_nil_iff_forall_not_mem]
        intro x hx
        simpa using hall2 x hx
      rw [hseen1, hseen2] at he3
      rcases dedup_fold_spec (a.removed ++ b.removed) [] [] List.nodup_nil (by simp)
        with ⟨_, _, _, _, _, r6⟩
      rcases r6 he3 with ⟨_, _, hall3⟩
      have hrem : a.removed ++ b.removed = [] := by
        rw [List.eq_nil_iff_forall_not_mem]
        intro x hx
        simpa using hall3 x hx
      rw [List.append_eq_nil] at hadded hmod hrem
      rw [hme]
      have ha : a.IsEmpty = true :=
        changeSet_isEmpty_iff.mpr ⟨hadded.1, hmod.1, hrem.1⟩
      have hb : b.IsEmpty = true :=
        changeSet_isEmpty_iff.mpr ⟨hadded.2, hmod.2, hrem.2⟩
      rw [ha, hb]
      rfl
    · rw [Bool.not_eq_true] at hme
      rw [hme]
      by_cases hab : a.IsEmpty = true ∧ b.IsEmpty = true
      · exfalso
        rcases changeSet_isEmpty_iff.mp hab.1 with ⟨ha1, ha2, ha3⟩
        rcases changeSet_isEmpty_iff.mp hab.2 with ⟨hb1, hb2, hb3⟩
        have : (mergeChanges a b).IsEmpty = true := by
          rw [mergeChanges, ha1, ha2, ha3, hb1, hb2, hb3]
          rfl
        rw [this] at hme
        exact Bool.noConfusion hme
      · rcases Decidable.not_and_iff_or_not.mp hab with h | h <;>
          simp [Bool.not_eq_true] at h <;> simp [h]
  · intro old new
    exact ⟨List.sorted_insertionSort _ _, List.sorted_insertionSort _ _,
      List.sorted_insertionSort _ _⟩

/-- Witness for the amended C9: the delivery guard passes a concrete
non-empty change set, whose emptiness flag is indeed false. -/
theorem watcher_changeset_delivery_spec_witness :
    ChangeSet.IsEmpty ⟨["a"], [], []⟩ = false :=
  watcher_changeset_delivery_spec.1 (some ⟨["a"], [], []⟩) ⟨["a"], [], []⟩
    (by decide)

end GoRun.Watcher

namespace GoRun.Config

/-- A variable map (environment, parent vars, resolved vars) seen through
lookup only. -/
abbrev VarMap := String → Option String

/-- Go's map-overwrite merge: copy `base`, then copy `over` on top, so
`over` wins on conflicts. -/
def overlayMap (base over : VarMap) : VarMap := fun k =>
  match over k with
  | some v => some v
  | none => base k

/-- `Process` of pkg/config: merge `WithVars` parent vars into the
environment map, the environment winning on conflicts (no-op when no
parent vars were supplied). -/
def mergeVarsEnv (parentVars : Option VarMap) (env : VarMap) : VarMap :=
  match parentVars with
  | none => env
  | some pv => overlayMap pv env

/-- The template data built both in `processRawConfig` (phase 2, from the
fully resolved document vars) and in each `resolveVars` pass (from the
vars resolved so far): resolved vars first, then the merged environment
on top, so the environment wins. -/
def templateDataOf (resolvedVars env : VarMap) : VarMap :=
  overlayMap resolvedVars env

/-- Lookup in an association-list variable map. -/
def assocFind (m : List (String × String)) : VarMap := fun k => List.lookup k m

/-- Claim C7: when the same name is defined in several sources, the value
substituted — both while resolving the `vars` section and in the
full-document pass — comes from the process environment first, then the
parent-injected vars (`WithVars`), then the document's own vars. -/
theorem resolution_priority (env parent : VarMap) (k : String) :
    (∀ docVars : VarMap,
      templateDataOf docVars (mergeVarsEnv (some parent) env) k =
        (match env k with
         | some v => some v
         | none =>
           match parent k with
           | some v => some v
           | none => docVars k)) ∧
    (∀ resolvedSoFar : List (String × String),
      templateDataOf (assocFind resolvedSoFar) (mergeVarsEnv (some parent) env) k =
        (match env k with
         | some v => some v
         | none =>
           match parent k with
           | some v => some v
           | none => assocFind resolvedSoFar k)) := by
  constructor
  · intro docVars
    unfold templateDataOf mergeVarsEnv overlayMap
    rcases henv : env k with _ | v <;> rcases hpar : parent k with _ | w <;>
      simp [henv, hpar]
  · intro resolvedSoFar
    unfold templateDataOf mergeVarsEnv overlayMap
    rcases henv : env k with _ | v <;> rcases hpar : parent k with _ | w <;>
      simp [henv, hpar]

/-- The `<no value>` placeholder Go's template engine leaves for an
undefined reference. -/
def noValuePlaceholder : String := "<no value>"

/-- Whether `pat` is a prefix of `l`. -/
def startsWithChars : List Char → List Char → Bool
  | _, [] => true
  | [], _ :: _ => false
  | a :: as, b :: bs => a = b && startsWithChars as bs

/-- `strings.Contains` on code-point lists. -/
def containsChars (l pat : List Char) : Bool :=
  match l with
  | [] => pat.isEmpty
  | _ :: rest => startsWithChars l pat || containsChars rest pat

/-- `strings.Contains`. -/
def strContains (s pat : String) : Bool := containsChars s.data pat.data

/-- The per-pass "still unresolved" test of `resolveVars`: the value
still contains a delimiter pair or the undefined-variable placeholder. -/
def hasUnresolvedMarkers (v : String) : Bool :=
  strContains v "\x7b\x7b" || strContains v "[[" || strContains v noValuePlaceholder

/-- `resolveExpr` abstracted: evaluating one template expression against
a variable map either fails (an evaluation error such as `required`) or
produces a string. -/
abbrev Eval := String → VarMap → Except String String

/-- One pass of the `resolveVars` loop: walk the unresolved entries in
order; an entry whose expression evaluates without error to a value free
of unresolved markers moves to the resolved map (visible to later
entries of the same pass), everything else stays unresolved; the third
component records whether the pass made progress. -/
def onePass (eval : Eval) (env : VarMap)
    (r u : List (String × String)) :
    List (String × String) × List (String × String) × Bool :=
  u.foldl
    (fun acc ke =>
      match eval ke.2 (templateDataOf (assocFind acc.1) env) with
      | .error _ => (acc.1, acc.2.1 ++ [ke], acc.2.2)
      | .ok v =>
        if hasUnresolvedMarkers v then (acc.1, acc.2.1 ++ [ke], acc.2.2)
        else (acc.1 ++ [(ke.1, v)], acc.2.1, true))
    (r, [], false)

/-- The bounded iteration of `resolveVars` (`for i := 0; i < 10; i++`):
stops when nothing is left, or as soon as a pass resolves nothing, or
when the fuel runs out; also returns the number of passes executed. -/
def resolveVarsLoop (eval : Eval) (env : VarMap) :
    Nat → List (String × String) → List (String × String) →
    List (String × String) × List (String × String) × Nat
  | 0, r, u => (r, u, 0)
  | fuel + 1, r, u =>
    if u.isEmpty then (r, u, 0)
    else
      let p := onePass eval env r u
      if p.2.2 then
        let q := resolveVarsLoop eval env fuel p.1 p.2.1
        (q.1, q.2.1, q.2.2 + 1)
      else (p.1, p.2.1, 1)

/-- The error reported for a leftover unresolved var: either the
expression's own evaluation error, or the circular-dependency message
when the expression evaluates but markers remain. -/
inductive VarError where
  | exprFailed (varName msg : String)
  | circular (varName : String)
deriving DecidableEq, Repr

/-- The variable the error names. -/
def VarError.varName : VarError → String
  | .exprFailed n _ => n
  | .circular n => n

/-- `resolveVars` of pkg/config: empty vars resolve to nothing; otherwise
run up to 10 passes; leftovers make the whole resolution fail with an
error naming the first unresolvable var. -/
def resolveVars (eval : Eval) (env : VarMap) (vars : List (String × String)) :
    Except VarError (List (String × String)) :=
  if vars.isEmpty then Except.ok []
  else
    match resolveVarsLoop eval env 10 [] vars with
    | (r, [], _) => .ok r
    | (r, (k, expr) :: _, _) =>
      match eval expr (templateDataOf (assocFind r) env) with
      | .error e => .error (.exprFailed k e)
      | .ok _ => .error (.circular k)

theorem loop_passes_le (eval : Eval) (env : VarMap) :
    ∀ fuel r u, (resolveVarsLoop eval env fuel r u).2.2 ≤ fuel := by
  intro fuel
  induction fuel with
  | zero => intro r u; simp [resolveVarsLoop]
  | succ n ih =>
    intro r u
    cases hu : u.isEmpty with
    | true => simp [resolveVarsLoop, hu]
    | false =>
      cases hp : (onePass eval env r u).2.2 with
      | true =>
        simp only [resolveVarsLoop, hu, hp, Bool.false_eq_true, if_false, if_true]
        exact Nat.succ_le_succ (ih _ _)
      | false =>
        simp only [resolveVarsLoop, hu, hp, Bool.false_eq_true, if_false]
        omega

theorem onePass_fold_keys (eval : Eval) (env : VarMap) :
    ∀ (u r uacc : List (String × String)) (prog : Bool),
      ((u.foldl
        (fun (acc : List (String × String) × List (String × String) × Bool) ke =>
          match eval ke.2 (templateDataOf (assocFind acc.1) env) with
          | .error _ => (acc.1, acc.2.1 ++ [ke], acc.2.2)
          | .ok v =>
            if hasUnresolvedMarkers v then (acc.1, acc.2.1 ++ [ke], acc.2.2)
            else (acc.1 ++ [(ke.1, v)], acc.2.1, true))
        (r, uacc, prog)).1.map Prod.fst ++
       (u.foldl
        (fun (acc : List (String × String) × List (String × String) × Bool) ke =>
          match eval ke.2 (templateDataOf (assocFind acc.1) env) with
          | .error _ => (acc.1, acc.2.1 ++ [ke], acc.2.2)
          | .ok v =>
            if hasUnresolvedMarkers v then (acc.1, acc.2.1 ++ [ke], acc.2.2)
            else (acc.1 ++ [(ke.1, v)], acc.2.1, true))
        (r, uacc, prog)).2.1.map Prod.fst).Perm
      (r.map Prod.fst ++ uacc.map Prod.fst ++ u.map Prod.fst) := by
  intro u
  induction u with
  | nil =>
    intro r uacc prog
    simp
  | cons ke rest ih =>
    intro r uacc prog
    rw [List.foldl_cons]
    rcases heval : eval ke.2 (templateDataOf (assocFind r) env) with msg | v
    · simp only [heval]
      have h := ih r (uacc ++ [ke]) prog
      refine h.trans ?_
      simp [List.append_assoc]
    · simp only [heval]
      by_cases hmark : hasUnresolvedMarkers v
      · simp only [hmark, if_true]
        have h := ih r (uacc ++ [ke]) prog
        refine h.trans ?_
        simp [List.append_assoc]
      · simp only [hmark, if_false]
        have h := ih (r ++ [(ke.1, v)]) uacc true
        refine h.trans ?_
        simp only [List.map_append, List.map_cons, List.map_nil, List.append_assoc,
          List.singleton_append]
        exact List.Perm.append_left _ List.perm_middle.symm

theorem onePass_keys (eval : Eval) (env : VarMap)
    (r u : List (String × String)) :
    ((onePass eval env r u).1.map Prod.fst ++
     (onePass eval env r u).2.1.map Prod.fst).Perm
      (r.map Prod.fst ++ u.map Prod.fst) := by
  have h := onePass_fold_keys eval env u r [] false
  simpa [onePass] using h

theorem loop_keys (eval : Eval) (env : VarMap) :
    ∀ fuel r u,
      ((resolveVarsLoop eval env fuel r u).1.map Prod.fst ++
       (resolveVarsLoop eval env fuel r u).2.1.map Prod.fst).Perm
        (r.map Prod.fst ++ u.map Prod.fst) := by
  intro fuel
  induction fuel with
  | zero => intro r u; simp [resolveVarsLoop]
  | succ n ih =>
    intro r u
    cases hu : u.isEmpty with
    | true => simp [resolveVarsLoop, hu]
    | false =>
      cases hp : (onePass eval env r u).2.2 with
      | true =>
        simp only [resolveVarsLoop, hu, hp, Bool.false_eq_true, if_false, if_true]
        exact (ih _ _).trans (onePass_keys eval env r u)
      | false =>
        simp only [resolveVarsLoop, hu, hp, Bool.false_eq_true, if_false]
        exact onePass_keys eval env r u

/-- Claim C8: the vars-resolution loop runs at most 10 passes, exits as
soon as a pass resolves nothing, and when vars are left unresolved the
whole resolution returns an error naming the first unresolvable var (the
expression's own failure, or the circular-dependency message) rather
than a partially resolved map: a successful result always covers every
var. -/
theorem resolveVars_spec (eval : Eval) (env : VarMap)
    (vars : List (String × String)) :
    (resolveVarsLoop eval env 10 [] vars).2.2 ≤ 10 ∧
    (∀ fuel r u, u.isEmpty = false → (onePass eval env r u).2.2 = false →
      resolveVarsLoop eval env (fuel + 1) r u =
        ((onePass eval env r u).1, (onePass eval env r u).2.1, 1)) ∧
    (∀ m, resolveVars eval env vars = .ok m →
      (m.map Prod.fst).Perm (vars.map Prod.fst)) ∧
    (∀ e, resolveVars eval env vars = .error e →
      ∃ expr rest,
        (resolveVarsLoop eval env 10 [] vars).2.1 = (e.varName, expr) :: rest) := by
  refine ⟨loop_passes_le eval env 10 [] vars, ?_, ?_, ?_⟩
  · intro fuel r u hu hp
    simp only [resolveVarsLoop, hu, hp, Bool.false_eq_true, if_false]
  · intro m hm
    cases hv : vars.isEmpty with
    | true =>
      rw [resolveVars, if_pos hv] at hm
      cases hm
      rw [List.isEmpty_iff.mp hv]
    | false =>
      rw [resolveVars, if_neg (by simp [hv])] at hm
      rcases hres : resolveVarsLoop eval env 10 [] vars with ⟨r, u, passes⟩
      rw [hres] at hm
      have hkeys := loop_keys eval env 10 [] vars
      rw [hres] at hkeys
      cases u with
      | nil =>
        simp only at hm
        cases hm
        simpa using hkeys
      | cons ke rest =>
        rcases ke with ⟨k, expr⟩
        simp only at hm
        rcases heval : eval expr (templateDataOf (assocFind r) env) with msg | v <;>
          rw [heval] at hm <;> exact Except.noConfusion hm
  · intro e he
    cases hv : vars.isEmpty with
    | true =>
      rw [resolveVars, if_pos hv] at he
      exact Except.noConfusion he
    | false =>
      rw [resolveVars, if_neg (by simp [hv])] at he
      rcases hres : resolveVarsLoop eval env 10 [] vars with ⟨r, u, passes⟩
      rw [hres] at he
      cases u with
      | nil =>
        simp only at he
        exact Except.noConfusion he
      | cons ke rest =>
        rcases ke with ⟨k, expr⟩
        simp only at he
        rcases heval : eval expr (templateDataOf (assocFind r) env) with msg | v <;>
          rw [heval] at he <;> cases he <;>
          exact ⟨expr, rest, rfl⟩

/-- An evaluator that always fails, for the C8 witness. -/
def evalAlwaysFails : Eval := fun _ _ => .error "undefined"

/-- The empty environment, for the C8 witness. -/
def emptyEnv : VarMap := fun _ => none

/-- Witness for C8: with an evaluator that always fails and one var, the
first pass makes no progress, the loop stops after one pass, and the
resolution reports an error naming that var. -/
theorem resolveVars_spec_witness :
    (resolveVars evalAlwaysFails emptyEnv [("a", "x")] =
      .error (.exprFailed "a" "undefined")) ∧
    (([("a", "x")] : List (String × String)).isEmpty = false ∧
     (onePass evalAlwaysFails emptyEnv [] [("a", "x")]).2.2 = false) ∧
    (resolveVarsLoop evalAlwaysFails emptyEnv 3 [] [("a", "x")] =
      ((onePass evalAlwaysFails emptyEnv [] [("a", "x")]).1,
       (onePass evalAlwaysFails emptyEnv [] [("a", "x")]).2.1, 1)) ∧
    (∃ expr rest,
      (resolveVarsLoop evalAlwaysFails emptyEnv 10 [] [("a", "x")]).2.1 =
        ((VarError.exprFailed "a" "undefined").varName, expr) :: rest) :=
  ⟨rfl, ⟨rfl, rfl⟩,
   (resolveVars_spec evalAlwaysFails emptyEnv [("a", "x")]).2.1 2 [] [("a", "x")]
     rfl rfl,
   (resolveVars_spec evalAlwaysFails emptyEnv [("a", "x")]).2.2.2
     (.exprFailed "a" "undefined") rfl⟩

end GoRun.Config

namespace GoRun.Sumfile

/-- Whitespace as recognised by `strings.TrimSpace` / `strings.Fields`,
i.e. Go's `unicode.IsSpace`: `\t \n \v \f \r`, space, NEL and NBSP in
Latin-1, and the White_Space code points above it (U+1680, U+2000 to
U+200A, U+2028, U+2029, U+202F, U+205F, U+3000). -/
def isWS (c : Char) : Bool :=
  decide ((9 ≤ c.toNat ∧ c.toNat ≤ 13) ∨ c.toNat = 32 ∨ c.toNat = 0x85 ∨
    c.toNat = 0xA0 ∨ c.toNat = 0x1680 ∨
    (0x2000 ≤ c.toNat ∧ c.toNat ≤ 0x200A) ∨ c.toNat = 0x2028 ∨
    c.toNat = 0x2029 ∨ c.toNat = 0x202F ∨ c.toNat = 0x205F ∨ c.toNat = 0x3000)

/-- `strings.TrimSpace` on a code-point list. -/
def trimChars (l : List Char) : List Char :=
  ((l.dropWhile isWS).reverse.dropWhile isWS).reverse

/-- Accumulator-based splitter behind `strings.Fields`: `acc` holds the
current field reversed. -/
def fieldsAux (acc : List Char) : List Char → List (List Char)
  | [] => if acc.isEmpty then [] else [acc.reverse]
  | c :: cs =>
    if isWS c then
      if acc.isEmpty then fieldsAux [] cs else acc.reverse :: fieldsAux [] cs
    else fieldsAux (c :: acc) cs

/-- `strings.Fields`: split around runs of whitespace. -/
def fieldsOf (l : List Char) : List (List Char) := fieldsAux [] l

/-- Go map assignment `entries[k] = v` on the association-list model. -/
def mapAssign (m : SumSnapshot) (k v : String) : SumSnapshot :=
  if (m.find k).isSome then m.map (fun e => if e.1 = k then (k, v) else e)
  else m ++ [(k, v)]

/-- One iteration of `Read`'s scanner loop: trim the line, skip it when
blank or when it does not split into exactly two fields, otherwise store
`parts[1]` under `parts[0]`. -/
def readLine (m : SumSnapshot) (line : String) : SumSnapshot :=
  let t := trimChars line.data
  if t.isEmpty then m
  else
    match fieldsOf t with
    | [p, h] => mapAssign m ⟨p⟩ ⟨h⟩
    | _ => m

/-- `Read` of internal/sumfile, at the level of the file's lines. -/
def readLines (lines : List String) : SumSnapshot := lines.foldl readLine []

/-- The order `Write` sorts entries by (`sorted[i].Path < sorted[j].Path`). -/
def entryRel (a b : String × String) : Prop := strLe a.1 b.1 = true

instance : DecidableRel entryRel := fun a b => by
  unfold entryRel; infer_instance

instance : IsTotal (String × String) entryRel :=
  ⟨fun a b => lexLe_total a.1.data b.1.data⟩

instance : IsTrans (String × String) entryRel :=
  ⟨fun _ _ _ h1 h2 => lexLe_trans h1 h2⟩

/-- The path-sorted entry slice built by `Write`. -/
def sortEntries (m : SumSnapshot) : SumSnapshot := List.insertionSort entryRel m

/-- The line `Write` emits for one entry (`"%s %s\n"` without the
line terminator, which the line framing carries). -/
def entryLine (e : String × String) : String := e.1 ++ " " ++ e.2

/-- `Write` of internal/sumfile, at the level of the file's lines. -/
def writeLines (m : SumSnapshot) : List String := (sortEntries m).map entryLine

/-- A non-empty string free of whitespace. -/
def noWS (s : String) : Prop := s ≠ "" ∧ ∀ c ∈ s.data, isWS c = false

instance : DecidablePred noWS := fun s => by
  unfold noWS; infer_instance

/-- A well-formed snapshot: distinct keys, and every path and hash
non-empty and whitespace-free. -/
def WfSum (m : SumSnapshot) : Prop :=
  m.keys.Nodup ∧ ∀ e ∈ m, noWS e.1 ∧ noWS e.2

theorem data_ne_nil_of_ne_empty {s : String} (h : s ≠ "") : s.data ≠ [] := by
  intro hd
  apply h
  cases s with
  | mk l =>
    cases hd
    rfl

theorem dropWhile_isWS_eq_self {l r : List Char} (hne : l ≠ [])
    (hl : ∀ c ∈ l, isWS c = false) :
    (l ++ r).dropWhile isWS = l ++ r := by
  cases l with
  | nil => exact absurd rfl hne
  | cons c cs =>
    have hc : isWS c = false := hl c (List.mem_cons_self c cs)
    simp [List.dropWhile_cons, hc]

theorem fieldsAux_all_nonws (l : List Char) :
    ∀ acc, (∀ c ∈ l, isWS c = false) →
      fieldsAux acc l =
        (if (acc.reverse ++ l).isEmpty then [] else [acc.reverse ++ l]) := by
  induction l with
  | nil =>
    intro acc _
    simp [fieldsAux, List.isEmpty_iff]
  | cons c cs ih =>
    intro acc hl
    have hc : isWS c = false := hl c (List.mem_cons_self c cs)
    have hcs : ∀ x ∈ cs, isWS x = false :=
      fun x hx => hl x (List.mem_cons_of_mem c hx)
    rw [fieldsAux]
    simp only [hc, Bool.false_eq_true, if_false]
    rw [ih (c :: acc) hcs]
    have he1 : ((c :: acc).reverse ++ cs).isEmpty = false := by
      simp [List.isEmpty_iff]
    have he2 : (acc.reverse ++ c :: cs).isEmpty = false := by
      simp [List.isEmpty_iff]
    rw [he1, he2]
    simp

theorem fieldsAux_entry (p : List Char) :
    ∀ acc (h : List Char), (∀ c ∈ p, isWS c = false) →
      (∀ c ∈ h, isWS c = false) → h ≠ [] → acc.reverse ++ p ≠ [] →
      fieldsAux acc (p ++ ' ' :: h) = [acc.reverse ++ p, h] := by
  induction p with
  | nil =>
    intro acc h _ hh hhne hacc
    rw [List.nil_append]
    rw [fieldsAux]
    have hsp : isWS ' ' = true := rfl
    simp only [hsp, if_true]
    have haccne : acc.isEmpty = false := by
      simp only [List.append_nil] at hacc
      simp [List.isEmpty_iff]
      intro hx
      rw [hx] at hacc
      simp at hacc
    simp only [haccne, Bool.false_eq_true, if_false]
    rw [fieldsAux_all_nonws h [] hh]
    have : (([] : List Char).reverse ++ h).isEmpty = false := by
      simp [List.isEmpty_iff, hhne]
    rw [this]
    simp
  | cons c cs ih =>
    intro acc h hp hh hhne _
    have hc : isWS c = false := hp c (List.mem_cons_self c cs)
    have hcs : ∀ x ∈ cs, isWS x = false :=
      fun x hx => hp x (List.mem_cons_of_mem c hx)
    rw [List.cons_append, fieldsAux]
    simp only [hc, Bool.false_eq_true, if_false]
    rw [ih (c :: acc) h hcs hh hhne (by simp)]
    simp

theorem trimChars_entry {p h : List Char} (hpne : p ≠ []) (hhne : h ≠ [])
    (hp : ∀ c ∈ p, isWS c = false) (hh : ∀ c ∈ h, isWS c = false) :
    trimChars (p ++ ' ' :: h) = p ++ ' ' :: h := by
  rw [trimChars]
  rw [dropWhile_isWS_eq_self hpne hp]
  have hrev : (p ++ ' ' :: h).reverse = h.reverse ++ ' ' :: p.reverse := by
    simp
  rw [hrev]
  have hhrev : ∀ c ∈ h.reverse, isWS c = false := by
    intro c hc
    exact hh c (List.mem_reverse.mp hc)
  rw [dropWhile_isWS_eq_self (by simp [hhne]) hhrev]
  rw [← hrev, List.reverse_reverse]

end GoRun.Sumfile

namespace GoRun.Sumfile

instance : DecidablePred WfSum := fun m => by
  unfold WfSum; infer_instance

theorem stringMk_data (s : String) : String.mk s.data = s := by
  cases s with
  | mk l => rfl

theorem find_append_of_none {a : SumSnapshot} {k : String}
    (h : a.find k = none) (b : SumSnapshot) :
    SumSnapshot.find (a ++ b) k = b.find k := by
  induction a with
  | nil => rfl
  | cons e rest ih =>
    rcases hbeq : (k == e.1) with _ | _
    · rw [SumSnapshot.find, List.lookup] at h
      rw [hbeq] at h
      rw [List.cons_append, SumSnapshot.find, List.lookup, hbeq]
      exact ih h
    · rw [SumSnapshot.find, List.lookup, hbeq] at h
      exact Option.noConfusion h

theorem readLine_entry {m : SumSnapshot} {p h : String}
    (hp : noWS p) (hh : noWS h) :
    readLine m (entryLine (p, h)) = mapAssign m p h := by
  have hpne := data_ne_nil_of_ne_empty hp.1
  have hhne := data_ne_nil_of_ne_empty hh.1
  have hdata : (entryLine (p, h)).data = p.data ++ ' ' :: h.data := by
    rw [entryLine]
    rw [String.data_append, String.data_append]
    have hsp : (" " : String).data = [' '] := rfl
    rw [hsp]
    simp
  rw [readLine]
  simp only [hdata]
  rw [trimChars_entry hpne hhne hp.2 hh.2]
  have htne : (p.data ++ ' ' :: h.data).isEmpty = false := by
    simp [List.isEmpty_iff]
  simp only [htne, Bool.false_eq_true, if_false]
  rw [fieldsOf, fieldsAux_entry p.data [] h.data hp.2 hh.2 hhne (by simp [hpne])]
  show mapAssign m (String.mk ([].reverse ++ p.data)) (String.mk h.data) = mapAssign m p h
  rw [List.reverse_nil, List.nil_append, stringMk_data, stringMk_data]

theorem foldl_readLine_entries (l : SumSnapshot) :
    ∀ acc : SumSnapshot, (∀ e ∈ l, noWS e.1 ∧ noWS e.2) → l.keys.Nodup →
      (∀ k ∈ l.keys, acc.find k = none) →
      (l.map entryLine).foldl readLine acc = acc ++ l := by
  induction l with
  | nil =>
    intro acc _ _ _
    simp
  | cons e rest ih =>
    intro acc hwf hnd hdisj
    rcases e with ⟨p, h⟩
    rw [List.map_cons, List.foldl_cons]
    have hwf0 := hwf (p, h) (List.mem_cons_self _ _)
    rw [readLine_entry hwf0.1 hwf0.2]
    have hfind : acc.find p = none := hdisj p (by simp [SumSnapshot.keys])
    have hassign : mapAssign acc p h = acc ++ [(p, h)] := by
      rw [mapAssign, hfind]
      rfl
    rw [hassign]
    simp only [SumSnapshot.keys, List.map_cons, List.nodup_cons] at hnd
    have hrest : (rest.map entryLine).foldl readLine (acc ++ [(p, h)]) =
        (acc ++ [(p, h)]) ++ rest := by
      refine ih (acc ++ [(p, h)]) (fun f hf => hwf f (List.mem_cons_of_mem _ hf))
        hnd.2 ?_
      intro k hk
      have hkp : k ≠ p := by
        intro hkp
        subst hkp
        exact hnd.1 hk
      have hacck : acc.find k = none := hdisj k (List.mem_cons_of_mem _ hk)
      rw [find_append_of_none hacck]
      rw [SumSnapshot.find, List.lookup]
      have : (k == p) = false := by simp [hkp]
      rw [this]
      rfl
    rw [hrest, List.append_assoc, List.singleton_append]

theorem find_eq_of_perm {l l2 : SumSnapshot} (hperm : l.Perm l2) :
    l2.keys.Nodup → ∀ k, l.find k = l2.find k := by
  induction hperm with
  | nil =>
    intro _ k
    rfl
  | cons x p ih =>
    intro hnd k
    simp only [SumSnapshot.keys, List.map_cons, List.nodup_cons] at hnd
    rw [SumSnapshot.find, SumSnapshot.find, List.lookup, List.lookup]
    rcases hbeq : (k == x.1) with _ | _
    · exact ih hnd.2 k
    · rfl
  | swap x y t =>
    intro hnd k
    simp only [SumSnapshot.keys, List.map_cons, List.nodup_cons, List.mem_cons] at hnd
    have hxy : y.1 ≠ x.1 := fun he => hnd.1 (Or.inl he.symm)
    rw [SumSnapshot.find, SumSnapshot.find]
    rw [List.lookup, List.lookup, List.lookup, List.lookup]
    rcases hby : (k == y.1) with _ | _ <;> rcases hbx : (k == x.1) with _ | _ <;>
      simp_all
  | trans p1 p2 ih1 ih2 =>
    intro hnd k
    have hndmid : _ := ((p2.map Prod.fst).nodup_iff).mpr hnd
    exact (ih1 hndmid k).trans (ih2 hnd k)

/-- Counterexample to claim C6: for the snapshot mapping path `"a b"`
(a path containing a space) to `"h"`, `Write` emits the line `a b h`,
which `Read` drops as malformed (three fields), so the round-trip loses
the entry and does not return a mapping equal to the input. -/
theorem write_read_roundtrip_false :
    readLines (writeLines [("a b", "h")]) = [] ∧
    SumSnapshot.find (readLines (writeLines [("a b", "h")])) "a b" = none ∧
    SumSnapshot.find [("a b", "h")] "a b" = some "h" := by
  refine ⟨by decide, by decide, by decide⟩

/-- Claim C6 (amended): for every snapshot with pairwise-distinct keys
whose paths and hashes are non-empty and whitespace-free (hashes are
7-character hexadecimal strings; paths must not contain whitespace for
the line format to survive), writing with `Write` and reading the lines
back with `Read` yields exactly the path-sorted entry list, a mapping
equal to the original. -/
theorem write_read_roundtrip (m : SumSnapshot) (hwf : WfSum m) :
    readLines (writeLines m) = sortEntries m ∧
    ∀ k, SumSnapshot.find (readLines (writeLines m)) k = m.find k := by
  have hperm : (sortEntries m).Perm m := List.perm_insertionSort _ _
  have hkeysperm : (SumSnapshot.keys (sortEntries m)).Perm m.keys :=
    hperm.map Prod.fst
  have hnd : (SumSnapshot.keys (sortEntries m)).Nodup :=
    hkeysperm.nodup_iff.mpr hwf.1
  have hwf2 : ∀ e ∈ sortEntries m, noWS e.1 ∧ noWS e.2 :=
    fun e he => hwf.2 e (hperm.mem_iff.mp he)
  have heq : readLines (writeLines m) = sortEntries m := by
    rw [readLines, writeLines]
    rw [foldl_readLine_entries (sortEntries m) [] hwf2 hnd (fun k _ => rfl)]
    simp
  refine ⟨heq, ?_⟩
  intro k
  rw [heq]
  exact find_eq_of_perm hperm hwf.1 k

/-- Witness for the amended C6 at a concrete two-entry snapshot. -/
theorem write_read_roundtrip_witness :
    WfSum [("b", "2"), ("a", "1")] ∧
    (readLines (writeLines [("b", "2"), ("a", "1")]) =
      sortEntries [("b", "2"), ("a", "1")] ∧
     ∀ k, SumSnapshot.find (readLines (writeLines [("b", "2"), ("a", "1")])) k =
       SumSnapshot.find [("b", "2"), ("a", "1")] k) :=
  ⟨by decide, write_read_roundtrip [("b", "2"), ("a", "1")] (by decide)⟩

end GoRun.Sumfile
